import Mathlib

/-!
Verification of the replenishment-suggestion core of the `controle-mercado`
pantry-tracking application (source: `src/app.py`).

The embedding models, over exact arithmetic (`ℤ` for integer quantities and
timestamps in seconds, `ℚ` for prices and rates):

* the data model: products (`Product`) and history events (`Event`, with the
  two kinds `LEVANTAMENTO` = stock audit and `COMPRA` = purchase);
* the suggestion computation `calcular_sugestao` (app.py lines 124-163),
  split into the rate estimation (`estimate`, lines 129-153) and the
  suggestion/reason selection (lines 132-163);
* the purchase-commit handler (`commit`, lines 266-300);
* the stock-count handler (`apply_audit`, lines 330-357);
* the product-registration handler (`cadastrar`, lines 376-410) and the
  deletion handler (`excluir`, lines 420-425).

Timestamps are modelled as seconds since an epoch; the Python code stores
them as "YYYY-MM-DD HH:MM:SS" strings whose lexicographic order, `strptime`
subtraction and `pd.to_datetime` comparison all agree with this integer
order for well-formed values.  `timedelta.days` is floored division by
86400 (`Int.fdiv`).  Python's `int()` truncates toward zero (`pyInt`).
-/

/-- Event kind: `LEVANTAMENTO` is a stock audit, `COMPRA` a purchase. -/
inductive Tipo where
  | levantamento
  | compra
deriving DecidableEq

/-- One row of the `historico` sheet. -/
structure Event where
  data : ℤ
  produto_id : ℤ
  tipo : Tipo
  qtd : ℤ
  preco_epoca : ℚ
deriving DecidableEq

/-- One row of the `produtos` sheet. -/
structure Product where
  id : ℤ
  produto : String
  marca : String
  preco : ℚ
  estoque_atual : ℤ
  estoque_minimo : ℤ
deriving DecidableEq

/-- The displayed reason attached to a suggestion (`motivo` in app.py).
`mediaConsumo` carries the computed monthly rate that the code interpolates
into the message text. -/
inductive Motivo where
  | vazio
  | mediaConsumo (rate : ℚ)
  | abaixoMinimo
deriving DecidableEq

/-- Python `int()`: truncation toward zero. -/
def pyInt (x : ℚ) : ℤ :=
  if 0 ≤ x then ⌊x⌋ else -⌊-x⌋

/-- The rounding applied to the suggestion at app.py line 163:
`int(sugestao + 0.9)`. -/
def pyRound (x : ℚ) : ℤ :=
  pyInt (x + 9/10)

/-- Insert an event into a list sorted by decreasing timestamp. -/
def insertDesc (e : Event) : List Event → List Event
  | [] => [e]
  | x :: xs => if x.data ≤ e.data then e :: x :: xs else x :: insertDesc e xs

/-- Sort events by decreasing timestamp
(`sort_values(by='Data', ascending=False)`, app.py line 129). -/
def sortDesc : List Event → List Event
  | [] => []
  | e :: es => insertDesc e (sortDesc es)

/-- `hist` at app.py line 129: the product's events, newest first.
This embedding is total on the empty history; the Python source is not: for
a blank `historico` sheet `load_data` returns an empty DataFrame with no
columns, so `df_hist['Produto_ID']` at line 129 raises `KeyError` instead of
selecting nothing.  The list model collapses that error path; it matters
only to claim C9. -/
def histOf (pid : ℤ) (df_hist : List Event) : List Event :=
  sortDesc (df_hist.filter (fun e => e.produto_id = pid))

/-- `levs` at app.py line 130: the product's audit events, newest first. -/
def levsOf (pid : ℤ) (df_hist : List Event) : List Event :=
  (histOf pid df_hist).filter (fun e => e.tipo = Tipo.levantamento)

/-- The `dias` variable (app.py lines 142-143): `(dt_atual - dt_anterior).days`,
replaced by 1 when 0. -/
def diasOf (ultimo penultimo : Event) : ℤ :=
  if Int.fdiv (ultimo.data - penultimo.data) 86400 = 0 then 1
  else Int.fdiv (ultimo.data - penultimo.data) 86400

/-- The `compras` variable (app.py lines 145-149): sum of the quantities of
the product's COMPRA events strictly after the previous audit and up to and
including the latest one. -/
def comprasBetween (pid : ℤ) (df_hist : List Event) (ultimo penultimo : Event) : ℤ :=
  (((histOf pid df_hist).filter (fun e =>
      e.tipo = Tipo.compra ∧ penultimo.data < e.data ∧ e.data ≤ ultimo.data)).map
    (fun e => e.qtd)).sum

/-- The `consumido` variable (app.py lines 150-151), clamped at 0. -/
def consumidoOf (pid : ℤ) (df_hist : List Event) (ultimo penultimo : Event) : ℤ :=
  if penultimo.qtd + comprasBetween pid df_hist ultimo penultimo - ultimo.qtd < 0 then 0
  else penultimo.qtd + comprasBetween pid df_hist ultimo penultimo - ultimo.qtd

/-- The monthly consumption rate computed at app.py lines 135-153
(`consumo_mensal`), or `none` when fewer than two audits exist.  This is the
value the spec calls the Consumption Estimator's result. -/
def estimate (pid : ℤ) (df_hist : List Event) : Option ℚ :=
  match levsOf pid df_hist with
  | ultimo :: penultimo :: _ =>
      some ((consumidoOf pid df_hist ultimo penultimo : ℚ) /
        (diasOf ultimo penultimo : ℚ) * 30)
  | _ => none

/-- The value of the `sugestao` variable right before the rounding at
app.py line 163. -/
def sugestaoVal (row : Product) (df_hist : List Event) : ℚ :=
  match estimate row.id df_hist with
  | some consumo_mensal =>
      if (row.estoque_atual : ℚ) < consumo_mensal then
        consumo_mensal - (row.estoque_atual : ℚ)
      else 0
  | none =>
      if row.estoque_atual < row.estoque_minimo then
        ((row.estoque_minimo - row.estoque_atual : ℤ) : ℚ)
      else 0

/-- The value of the `motivo` variable at app.py line 163. -/
def motivoVal (row : Product) (df_hist : List Event) : Motivo :=
  match estimate row.id df_hist with
  | some consumo_mensal =>
      if (row.estoque_atual : ℚ) < consumo_mensal then
        Motivo.mediaConsumo consumo_mensal
      else Motivo.vazio
  | none =>
      if row.estoque_atual < row.estoque_minimo then Motivo.abaixoMinimo
      else Motivo.vazio

/-- `calcular_sugestao` (app.py lines 124-163):
returns `(int(sugestao + 0.9), motivo)`. -/
def calcular_sugestao (row : Product) (df_hist : List Event) : ℤ × Motivo :=
  (pyRound (sugestaoVal row df_hist), motivoVal row df_hist)

/-- Rounding of a value to one decimal place, as in the spec's
`round(consumed / elapsed_days * 30, 1)`. -/
def round1 (x : ℚ) : ℚ :=
  ((round (10 * x) : ℤ) : ℚ) / 10

/-- Modelled from the spec (claim side): sum of the quantities of the
product's PURCHASE events with `previous.timestamp < t <= latest.timestamp`,
taken over the raw (unsorted) history. -/
def purchasedBetween (pid tPrev tLat : ℤ) (df_hist : List Event) : ℤ :=
  (((df_hist.filter (fun e => e.produto_id = pid)).filter (fun e =>
      e.tipo = Tipo.compra ∧ tPrev < e.data ∧ e.data ≤ tLat)).map (fun e => e.qtd)).sum

/-- Modelled from the spec (claim side): the monthly rate exactly as claim C1
states it — `round(consumed / elapsed_days * 30, 1)` with
`consumed = max 0 (previous.quantity + purchased_between - latest.quantity)`,
`latest` and `previous` the two most recent audits, and the elapsed days
floored with 0 treated as 1. -/
def specMonthlyRate (pid : ℤ) (df_hist : List Event) : Option ℚ :=
  match levsOf pid df_hist with
  | latest :: previous :: _ =>
      some (round1
        (((max 0 (previous.qtd + purchasedBetween pid previous.data latest.data df_hist
            - latest.qtd) : ℤ) : ℚ) / (diasOf latest previous : ℚ) * 30))
  | _ => none

/-- Modelled from the spec (claim side), amended: the same monthly rate
without the final rounding. -/
def specMonthlyRateRaw (pid : ℤ) (df_hist : List Event) : Option ℚ :=
  match levsOf pid df_hist with
  | latest :: previous :: _ =>
      some (((max 0 (previous.qtd + purchasedBetween pid previous.data latest.data df_hist
          - latest.qtd) : ℤ) : ℚ) / (diasOf latest previous : ℚ) * 30)
  | _ => none

/-- A pending cart entry: quantity and unit price chosen for a product
(session keys `qtd_<id>` and `prc_<id>`). -/
structure CartEntry where
  pid : ℤ
  qtd : ℤ
  preco : ℚ
deriving DecidableEq

/-- Outcome of the FINALIZAR COMPRA handler: either a purchase was saved or
the "Selecione algum produto." no-op warning was shown. -/
inductive Outcome where
  | committed
  | nothingToCommit
deriving DecidableEq

/-- The PURCHASE event built at app.py lines 278-284. -/
def mkCompra (now : ℤ) (c : CartEntry) : Event :=
  { data := now, produto_id := c.pid, tipo := Tipo.compra, qtd := c.qtd, preco_epoca := c.preco }

/-- The stock/price update at app.py lines 275-276 for one cart entry. -/
def aplicaCompra (c : CartEntry) (ps : List Product) : List Product :=
  ps.map (fun p =>
    if p.id = c.pid then { p with estoque_atual := p.estoque_atual + c.qtd, preco := c.preco }
    else p)

/-- The FINALIZAR COMPRA handler (app.py lines 266-300): for every cart entry
with positive quantity, bump the matching product's stock, record its price,
and build one PURCHASE event stamped with the single `now` captured at line
268; if nothing is positive, report the no-op.  On success the cart
quantities are reset to 0 (lines 294-295). -/
def commit (products : List Product) (history : List Event) (cart : List CartEntry) (now : ℤ) :
    List Product × List Event × List CartEntry × Outcome :=
  if (cart.filter (fun c => 0 < c.qtd)).map (mkCompra now) = [] then
    (products, history, cart, Outcome.nothingToCommit)
  else
    (cart.foldl (fun ps c => if 0 < c.qtd then aplicaCompra c ps else ps) products,
     history ++ (cart.filter (fun c => 0 < c.qtd)).map (mkCompra now),
     cart.map (fun c => { c with qtd := 0 }),
     Outcome.committed)

/-- Apply an optional cart entry to a product: bump the stock and record the
price when an entry is present. -/
def aplicaEntrada : Option CartEntry → Product → Product
  | some c, p => { p with estoque_atual := p.estoque_atual + c.qtd, preco := c.preco }
  | none, p => p

/-- The per-product-update result claim C5 describes: each product matched by
a positive-quantity cart entry has its stock incremented and its price set. -/
def commitProductsSpec (cart : List CartEntry) (products : List Product) : List Product :=
  products.map (fun p => aplicaEntrada (cart.find? (fun c => c.pid = p.id ∧ 0 < c.qtd)) p)

/-- The AUDIT event logged for a changed product (app.py lines 342-348 and,
for registration, lines 400-404). -/
def mkAudit (now pid v : ℤ) : Event :=
  { data := now, produto_id := pid, tipo := Tipo.levantamento, qtd := v, preco_epoca := 0 }

/-- One iteration of the SALVAR CONTAGEM loop (app.py lines 335-348).  The
state is (products, audit events logged so far, `alteracoes`).  The code
reads the first matching product's stock (`values[0]`); a count for an
unknown product id is never produced by the form, so that case leaves the
state unchanged here (the Python code would raise instead). -/
def auditStep (now : ℤ) (st : List Product × List Event × Bool) (c : ℤ × ℤ) :
    List Product × List Event × Bool :=
  match st.1.find? (fun p => p.id = c.1) with
  | some p =>
      if c.2 ≠ p.estoque_atual then
        (st.1.map (fun q => if q.id = c.1 then { q with estoque_atual := c.2 } else q),
         st.2.1 ++ [mkAudit now c.1 c.2],
         true)
      else st
  | none => st

/-- The SALVAR CONTAGEM handler (app.py lines 330-357): apply the counted
values, log one AUDIT event per changed product (all sharing `now`), and
report whether any change occurred. -/
def apply_audit (products : List Product) (history : List Event) (counts : List (ℤ × ℤ))
    (now : ℤ) : List Product × List Event × Bool :=
  if (counts.foldl (auditStep now) (products, [], false)).2.2 then
    ((counts.foldl (auditStep now) (products, [], false)).1,
     history ++ (counts.foldl (auditStep now) (products, [], false)).2.1, true)
  else (products, history, false)

/-- The largest product id (`df_produtos['ID'].max()`), 0 for an empty list
(that branch is never taken by `cadastrar`). -/
def maxId (products : List Product) : ℤ :=
  match products with
  | [] => 0
  | p :: ps => ps.foldl (fun m q => max m q.id) p.id

/-- The id picked for a new product (app.py lines 386-388): `len + 1`,
replaced by `max + 1` when `len + 1` already occurs among the ids. -/
def nidOf (products : List Product) : ℤ :=
  if products ≠ [] ∧ ((products.length : ℤ) + 1) ∈ products.map (fun p => p.id) then
    maxId products + 1
  else (products.length : ℤ) + 1

/-- The Cadastrar handler (app.py lines 376-410): reject an empty or
duplicate (case-insensitively, after trimming) name; otherwise append the
new product with price 0 and one AUDIT event carrying the initial stock. -/
def cadastrar (s : List Product × List Event) (nome marca : String)
    (est_inicial minimo now : ℤ) : List Product × List Event :=
  if nome = "" then s
  else if nome.trim.toLower ∈ s.1.map (fun p => p.produto.trim.toLower) then s
  else
    (s.1 ++ [{ id := nidOf s.1, produto := nome.trim, marca := marca, preco := 0,
               estoque_atual := est_inicial, estoque_minimo := minimo }],
     s.2 ++ [mkAudit now (nidOf s.1) est_inicial])

/-- The Excluir handler (app.py lines 420-425): drop products with the
selected name; history is kept. -/
def excluir (s : List Product × List Event) (nome : String) : List Product × List Event :=
  (s.1.filter (fun p => p.produto ≠ nome), s.2)

/-- One history event folded into the "last AUDIT value plus purchases since"
ledger for a product: an audit resets the ledger, a purchase adds to it. -/
def ledgerStep (pid : ℤ) (acc : Option ℤ) (e : Event) : Option ℤ :=
  if e.produto_id = pid then
    match e.tipo with
    | Tipo.levantamento => some e.qtd
    | Tipo.compra => acc.map (fun s => s + e.qtd)
  else acc

/-- The quantity of a product's most recent AUDIT event plus the sum of the
PURCHASE quantities appended after it; `none` when no audit exists. -/
def ledgerStock (pid : ℤ) (history : List Event) : Option ℤ :=
  history.foldl (ledgerStep pid) none

/-- The stock/history consistency invariant of spec section 3: every active
product's `current_stock` equals its last audit value plus the purchases
recorded since that audit. -/
abbrev Invariant (s : List Product × List Event) : Prop :=
  ∀ p ∈ s.1, ledgerStock p.id s.2 = some p.estoque_atual

/-- The states of (products, history) reachable from the empty sheets by the
four mutating handlers. -/
inductive Reachable : List Product × List Event → Prop where
  | init : Reachable ([], [])
  | reg (s : List Product × List Event) (nome marca : String) (est_inicial minimo now : ℤ) :
      Reachable s → Reachable (cadastrar s nome marca est_inicial minimo now)
  | buy (s : List Product × List Event) (cart : List CartEntry) (now : ℤ) :
      Reachable s →
      Reachable ((commit s.1 s.2 cart now).1, (commit s.1 s.2 cart now).2.1)
  | audit (s : List Product × List Event) (counts : List (ℤ × ℤ)) (now : ℤ) :
      Reachable s →
      Reachable ((apply_audit s.1 s.2 counts now).1, (apply_audit s.1 s.2 counts now).2.1)
  | del (s : List Product × List Event) (nome : String) :
      Reachable s → Reachable (excluir s nome)

/- Concrete data used by counterexamples and witnesses. -/

/-- Two audits seven days apart, consumption 1: the code's rate is `30/7`,
which is not a one-decimal value. -/
def c1Hist : List Event :=
  [⟨0, 1, Tipo.levantamento, 1, 0⟩, ⟨604800, 1, Tipo.levantamento, 0, 0⟩]

/-- Product with `min_stock = 4`, `current_stock = 1`. -/
def c2Prod : Product :=
  ⟨1, "Feijao", "", 0, 1, 4⟩

/-- Two audits one day apart with identical counts: the rate is 0, so the
rate-based need is negative for any positive stock. -/
def c2Hist : List Event :=
  [⟨0, 1, Tipo.levantamento, 1, 0⟩, ⟨86400, 1, Tipo.levantamento, 1, 0⟩]

/-- Two audits five days apart, consumption 1: rate `6`. -/
def c4Hist : List Event :=
  [⟨0, 2, Tipo.levantamento, 1, 0⟩, ⟨432000, 2, Tipo.levantamento, 0, 0⟩]

def c5Prods : List Product :=
  [⟨7, "Cafe", "", 3, 3, 1⟩]

def c5Hist : List Event :=
  [⟨0, 7, Tipo.levantamento, 3, 0⟩]

def c5Cart : List CartEntry :=
  [⟨7, 2, 11/2⟩]

def c6Cart : List CartEntry :=
  [⟨7, 0, 11/2⟩]

def c7Counts : List (ℤ × ℤ) :=
  [(7, 1)]

/-! ### Sorting lemmas -/

theorem insertDesc_perm (e : Event) (l : List Event) :
    List.Perm (insertDesc e l) (e :: l) := by
  induction l with
  | nil => exact List.Perm.refl _
  | cons x xs ih =>
      by_cases h : x.data ≤ e.data
      · simp [insertDesc, h]
      · simp only [insertDesc, if_neg h]
        exact (ih.cons x).trans (List.Perm.swap e x xs)

theorem sortDesc_perm (l : List Event) : List.Perm (sortDesc l) l := by
  induction l with
  | nil => exact List.Perm.refl _
  | cons e es ih => exact (insertDesc_perm e (sortDesc es)).trans (ih.cons e)

theorem insertDesc_pairwise {e : Event} {l : List Event}
    (h : l.Pairwise (fun a b => b.data ≤ a.data)) :
    (insertDesc e l).Pairwise (fun a b => b.data ≤ a.data) := by
  induction l with
  | nil => simp [insertDesc]
  | cons x xs ih =>
      rcases List.pairwise_cons.mp h with ⟨hx, hxs⟩
      by_cases hc : x.data ≤ e.data
      · simp only [insertDesc, if_pos hc]
        refine List.pairwise_cons.mpr ⟨?_, h⟩
        intro y hy
        rcases List.mem_cons.mp hy with hy | hy
        · rw [hy]; exact hc
        · exact le_trans (hx y hy) hc
      · simp only [insertDesc, if_neg hc]
        refine List.pairwise_cons.mpr ⟨?_, ih hxs⟩
        intro y hy
        have hy2 : y ∈ e :: xs := (insertDesc_perm e xs).mem_iff.mp hy
        rcases List.mem_cons.mp hy2 with hy3 | hy3
        · rw [hy3]; exact le_of_lt (lt_of_not_le hc)
        · exact hx y hy3

theorem sortDesc_pairwise (l : List Event) :
    (sortDesc l).Pairwise (fun a b => b.data ≤ a.data) := by
  induction l with
  | nil => simp [sortDesc]
  | cons e es ih => exact insertDesc_pairwise ih

theorem levsOf_pairwise (pid : ℤ) (df_hist : List Event) :
    (levsOf pid df_hist).Pairwise (fun a b => b.data ≤ a.data) := by
  exact List.Pairwise.sublist (List.filter_sublist _) (sortDesc_pairwise _)

theorem levsOf_head_le {pid : ℤ} {df_hist : List Event} {u p : Event} {rest : List Event}
    (h : levsOf pid df_hist = u :: p :: rest) : p.data ≤ u.data := by
  have hp := levsOf_pairwise pid df_hist
  rw [h] at hp
  exact (List.pairwise_cons.mp hp).1 p (by simp)

/-! ### Estimator lemmas -/

theorem estimate_cons {pid : ℤ} {df_hist : List Event} {u p : Event} {rest : List Event}
    (h : levsOf pid df_hist = u :: p :: rest) :
    estimate pid df_hist = some ((consumidoOf pid df_hist u p : ℚ) / (diasOf u p : ℚ) * 30) := by
  unfold estimate
  rw [h]

theorem estimate_eq_none_iff (pid : ℤ) (df_hist : List Event) :
    estimate pid df_hist = none ↔ (levsOf pid df_hist).length < 2 := by
  rcases h : levsOf pid df_hist with _ | ⟨u, _ | ⟨p, rest⟩⟩
  · unfold estimate; rw [h]; simp
  · unfold estimate; rw [h]; simp
  · rw [estimate_cons h]
    simp

theorem diasOf_pos {u p : Event} (h : p.data ≤ u.data) : 0 < diasOf u p := by
  have h0 : 0 ≤ Int.fdiv (u.data - p.data) 86400 := by
    rw [Int.fdiv_eq_ediv _ (by norm_num)]
    exact Int.ediv_nonneg (by omega) (by norm_num)
  unfold diasOf
  split <;> omega

theorem consumidoOf_nonneg (pid : ℤ) (df_hist : List Event) (u p : Event) :
    0 ≤ consumidoOf pid df_hist u p := by
  unfold consumidoOf
  split <;> omega

theorem estimate_nonneg {pid : ℤ} {df_hist : List Event} {r : ℚ}
    (h : estimate pid df_hist = some r) : 0 ≤ r := by
  rcases hl : levsOf pid df_hist with _ | ⟨u, _ | ⟨p, rest⟩⟩
  · unfold estimate at h; rw [hl] at h; simp at h
  · unfold estimate at h; rw [hl] at h; simp at h
  · rw [estimate_cons hl] at h
    have hr : r = (consumidoOf pid df_hist u p : ℚ) / (diasOf u p : ℚ) * 30 :=
      (Option.some.inj h).symm
    rw [hr]
    have hc : (0 : ℚ) ≤ (consumidoOf pid df_hist u p : ℚ) :=
      Int.cast_nonneg.mpr (consumidoOf_nonneg pid df_hist u p)
    have hd : (0 : ℚ) ≤ (diasOf u p : ℚ) :=
      Int.cast_nonneg.mpr (le_of_lt (diasOf_pos (levsOf_head_le hl)))
    exact mul_nonneg (div_nonneg hc hd) (by norm_num)

theorem comprasBetween_eq_purchasedBetween (pid : ℤ) (df_hist : List Event) (u p : Event) :
    comprasBetween pid df_hist u p = purchasedBetween pid p.data u.data df_hist := by
  unfold comprasBetween purchasedBetween histOf
  exact List.Perm.sum_eq (List.Perm.map _ (List.Perm.filter _ (sortDesc_perm _)))

theorem consumidoOf_eq_max (pid : ℤ) (df_hist : List Event) (u p : Event) :
    consumidoOf pid df_hist u p =
      max 0 (p.qtd + purchasedBetween pid p.data u.data df_hist - u.qtd) := by
  unfold consumidoOf
  rw [comprasBetween_eq_purchasedBetween]
  split <;> omega

theorem specRaw_cons {pid : ℤ} {df_hist : List Event} {u p : Event} {rest : List Event}
    (h : levsOf pid df_hist = u :: p :: rest) :
    specMonthlyRateRaw pid df_hist =
      some (((max 0 (p.qtd + purchasedBetween pid p.data u.data df_hist - u.qtd) : ℤ) : ℚ) /
        (diasOf u p : ℚ) * 30) := by
  unfold specMonthlyRateRaw
  rw [h]

theorem estimate_eq_specRaw (pid : ℤ) (df_hist : List Event) :
    estimate pid df_hist = specMonthlyRateRaw pid df_hist := by
  rcases hl : levsOf pid df_hist with _ | ⟨u, _ | ⟨p, rest⟩⟩
  · unfold estimate specMonthlyRateRaw; rw [hl]
  · unfold estimate specMonthlyRateRaw; rw [hl]
  · rw [estimate_cons hl, specRaw_cons hl, consumidoOf_eq_max]

/-! ### Rounding lemmas -/

theorem pyRound_nonneg {x : ℚ} (h : 0 ≤ x) : 0 ≤ pyRound x := by
  unfold pyRound pyInt
  rw [if_pos (by linarith : (0:ℚ) ≤ x + 9/10)]
  exact Int.le_floor.mpr (by push_cast; linarith)

theorem pyRound_intCast {n : ℤ} (h : 0 ≤ n) : pyRound (n : ℚ) = n := by
  have hn : (0 : ℚ) ≤ (n : ℚ) := Int.cast_nonneg.mpr h
  unfold pyRound pyInt
  rw [if_pos (by linarith : (0:ℚ) ≤ (n : ℚ) + 9/10)]
  rw [Int.floor_int_add]
  norm_num

theorem pyRound_zero : pyRound 0 = 0 := by
  have := pyRound_intCast (n := 0) le_rfl
  simpa using this

/-! ### Planner lemmas -/

theorem sugestaoVal_nonneg (row : Product) (df_hist : List Event) :
    0 ≤ sugestaoVal row df_hist := by
  unfold sugestaoVal
  rcases hE : estimate row.id df_hist with _ | r
  · dsimp only
    split
    · next hc => exact Int.cast_nonneg.mpr (by omega)
    · exact le_rfl
  · dsimp only
    split
    · next hlt => linarith
    · exact le_rfl

/-! ### Commit lemmas -/

theorem commit_fold_eq (cart : List CartEntry) (products : List Product)
    (hnd : (cart.map (fun c => c.pid)).Nodup) :
    cart.foldl (fun ps c => if 0 < c.qtd then aplicaCompra c ps else ps) products =
      commitProductsSpec cart products := by
  induction cart generalizing products with
  | nil =>
      simp [commitProductsSpec, aplicaEntrada]
  | cons c cs ih =>
      rw [List.map_cons, List.nodup_cons] at hnd
      obtain ⟨hc, hcs⟩ := hnd
      by_cases hq : 0 < c.qtd
      · rw [List.foldl_cons, if_pos hq, ih _ hcs]
        unfold commitProductsSpec aplicaCompra
        rw [List.map_map]
        apply List.map_congr_left
        intro p _
        simp only [Function.comp_apply]
        by_cases hp : p.id = c.pid
        · rw [if_pos hp]
          have hfind : cs.find? (fun c2 => c2.pid = p.id ∧ 0 < c2.qtd) = none := by
            apply List.find?_eq_none.mpr
            intro x hx
            simp only [decide_eq_true_eq, not_and]
            intro hxp _
            exact hc (List.mem_map.mpr ⟨x, hx, by rw [hxp, hp]⟩)
          have hfind2 : (c :: cs).find? (fun c2 => c2.pid = p.id ∧ 0 < c2.qtd) = some c :=
            List.find?_cons_of_pos _ (by simp [hp, hq])
          rw [hfind2]
          show aplicaEntrada (cs.find? (fun c2 => c2.pid = p.id ∧ 0 < c2.qtd)) _ = _
          rw [hfind]
          rfl
        · rw [if_neg hp]
          have hfind2 : (c :: cs).find? (fun c2 => c2.pid = p.id ∧ 0 < c2.qtd) =
              cs.find? (fun c2 => c2.pid = p.id ∧ 0 < c2.qtd) := by
            apply List.find?_cons_of_neg
            simp only [decide_eq_true_eq, not_and]
            exact fun h2 _ => hp h2.symm
          rw [hfind2]
      · rw [List.foldl_cons, if_neg hq, ih _ hcs]
        unfold commitProductsSpec
        apply List.map_congr_left
        intro p _
        have hfind2 : (c :: cs).find? (fun c2 => c2.pid = p.id ∧ 0 < c2.qtd) =
            cs.find? (fun c2 => c2.pid = p.id ∧ 0 < c2.qtd) := by
          apply List.find?_cons_of_neg
          simp only [decide_eq_true_eq, not_and]
          exact fun _ hq2 => hq hq2
        rw [hfind2]

theorem commit_realizadas_ne_nil {cart : List CartEntry} (h : ∃ c ∈ cart, 0 < c.qtd)
    (now : ℤ) : (cart.filter (fun c => 0 < c.qtd)).map (mkCompra now) ≠ [] := by
  rcases h with ⟨c, hc, hq⟩
  have : c ∈ cart.filter (fun c => 0 < c.qtd) := List.mem_filter.mpr ⟨hc, by simpa using hq⟩
  intro hnil
  rw [List.map_eq_nil_iff] at hnil
  rw [hnil] at this
  exact List.not_mem_nil c this

/-! ### Audit (stock count) lemmas -/

theorem auditStep_of_none {now : ℤ} {st : List Product × List Event × Bool} {c : ℤ × ℤ}
    (h : st.1.find? (fun p => p.id = c.1) = none) : auditStep now st c = st := by
  unfold auditStep
  rw [h]

theorem auditStep_of_eq {now : ℤ} {st : List Product × List Event × Bool} {c : ℤ × ℤ}
    {p : Product} (h : st.1.find? (fun p => p.id = c.1) = some p)
    (he : c.2 = p.estoque_atual) : auditStep now st c = st := by
  unfold auditStep
  rw [h]
  dsimp only
  rw [if_neg (by simp [he])]

theorem auditStep_of_ne {now : ℤ} {st : List Product × List Event × Bool} {c : ℤ × ℤ}
    {p : Product} (h : st.1.find? (fun p => p.id = c.1) = some p)
    (hne : c.2 ≠ p.estoque_atual) :
    auditStep now st c =
      (st.1.map (fun q => if q.id = c.1 then { q with estoque_atual := c.2 } else q),
       st.2.1 ++ [mkAudit now c.1 c.2],
       true) := by
  unfold auditStep
  rw [h]
  dsimp only
  rw [if_pos hne]

theorem auditStep_ids (now : ℤ) (st : List Product × List Event × Bool) (c : ℤ × ℤ) :
    (auditStep now st c).1.map (fun p => p.id) = st.1.map (fun p => p.id) := by
  rcases hf : st.1.find? (fun p => p.id = c.1) with _ | p
  · rw [auditStep_of_none hf]
  · by_cases he : c.2 = p.estoque_atual
    · rw [auditStep_of_eq hf he]
    · rw [auditStep_of_ne hf he]
      simp only [List.map_map]
      apply List.map_congr_left
      intro q _
      by_cases hq : q.id = c.1 <;> simp [Function.comp, hq]

theorem auditStep_flag {now : ℤ} {st : List Product × List Event × Bool} {c : ℤ × ℤ}
    (h : st.2.2 = true) : (auditStep now st c).2.2 = true := by
  rcases hf : st.1.find? (fun p => p.id = c.1) with _ | p
  · rw [auditStep_of_none hf]; exact h
  · by_cases he : c.2 = p.estoque_atual
    · rw [auditStep_of_eq hf he]; exact h
    · rw [auditStep_of_ne hf he]

theorem auditFold_flag (now : ℤ) (counts : List (ℤ × ℤ)) :
    ∀ st : List Product × List Event × Bool, st.2.2 = true →
      (counts.foldl (auditStep now) st).2.2 = true := by
  induction counts with
  | nil => exact fun st h => h
  | cons c cs ih =>
      intro st h
      rw [List.foldl_cons]
      exact ih _ (auditStep_flag h)

theorem auditStep_foreign {now : ℤ} {st : List Product × List Event × Bool} {c : ℤ × ℤ}
    {pid v : ℤ} (hne : c.1 ≠ pid)
    (h : ∀ p ∈ st.1, p.id = pid → p.estoque_atual = v) :
    ∀ p ∈ (auditStep now st c).1, p.id = pid → p.estoque_atual = v := by
  rcases hf : st.1.find? (fun p => p.id = c.1) with _ | p
  · rw [auditStep_of_none hf]; exact h
  · by_cases he : c.2 = p.estoque_atual
    · rw [auditStep_of_eq hf he]; exact h
    · rw [auditStep_of_ne hf he]
      intro q' hq' hq'id
      rcases List.mem_map.mp hq' with ⟨q, hq, rfl⟩
      by_cases hqc : q.id = c.1
      · rw [if_pos hqc] at hq'id ⊢
        exact absurd (hqc ▸ hq'id : c.1 = pid) hne
      · rw [if_neg hqc] at hq'id ⊢
        exact h q hq hq'id

theorem auditStep_mem_foreign {now : ℤ} {st : List Product × List Event × Bool} {c : ℤ × ℤ}
    {p : Product} (hp : p ∈ st.1) (hne : p.id ≠ c.1) : p ∈ (auditStep now st c).1 := by
  rcases hf : st.1.find? (fun p => p.id = c.1) with _ | q
  · rw [auditStep_of_none hf]; exact hp
  · by_cases he : c.2 = q.estoque_atual
    · rw [auditStep_of_eq hf he]; exact hp
    · rw [auditStep_of_ne hf he]
      exact List.mem_map.mpr ⟨p, hp, if_neg hne⟩

theorem auditFold_pres (now pid v : ℤ) :
    ∀ (counts : List (ℤ × ℤ)) (st : List Product × List Event × Bool),
      pid ∉ counts.map (fun c => c.1) →
      (∀ p ∈ st.1, p.id = pid → p.estoque_atual = v) →
      ∀ p ∈ (counts.foldl (auditStep now) st).1, p.id = pid → p.estoque_atual = v := by
  intro counts
  induction counts with
  | nil => exact fun st _ h => h
  | cons c cs ih =>
      intro st hk h
      rw [List.map_cons] at hk
      have hc : c.1 ≠ pid := fun hc => hk (by simp [hc])
      have hk2 : pid ∉ cs.map (fun c => c.1) := fun hmem => hk (by simp [hmem])
      rw [List.foldl_cons]
      exact ih _ hk2 (auditStep_foreign hc h)

theorem find_id_unique {P : List Product} (hnd : (P.map (fun p => p.id)).Nodup)
    {p : Product} (hp : p ∈ P) : P.find? (fun q => q.id = p.id) = some p := by
  induction P with
  | nil => cases hp
  | cons a as ih =>
      rw [List.map_cons, List.nodup_cons] at hnd
      obtain ⟨ha, has⟩ := hnd
      by_cases hax : a.id = p.id
      · rcases List.mem_cons.mp hp with rfl | hmem
        · exact List.find?_cons_of_pos _ (by simp)
        · exact absurd (hax ▸ List.mem_map.mpr ⟨p, hmem, rfl⟩) ha
      · have hp2 : p ∈ as := by
          rcases List.mem_cons.mp hp with rfl | h
          · exact absurd rfl hax
          · exact h
        rw [List.find?_cons_of_neg _ (by simpa using hax)]
        exact ih has hp2

theorem auditFold_sets (now : ℤ) :
    ∀ (counts : List (ℤ × ℤ)) (st : List Product × List Event × Bool),
      (counts.map (fun c => c.1)).Nodup → (st.1.map (fun p => p.id)).Nodup →
      ∀ c ∈ counts, ∀ q ∈ (counts.foldl (auditStep now) st).1, q.id = c.1 →
        q.estoque_atual = c.2 := by
  intro counts
  induction counts with
  | nil =>
      intro st _ _ c hc
      cases hc
  | cons c0 cs ih =>
      intro st hk hnd c hcmem q hq hqid
      rw [List.map_cons, List.nodup_cons] at hk
      obtain ⟨hk0, hks⟩ := hk
      rw [List.foldl_cons] at hq
      rcases List.mem_cons.mp hcmem with rfl | hmem
      · have hprop : ∀ p ∈ (auditStep now st c).1, p.id = c.1 → p.estoque_atual = c.2 := by
          rcases hf : st.1.find? (fun p => p.id = c.1) with _ | p
          · rw [auditStep_of_none hf]
            intro p hp hpid
            have := List.find?_eq_none.mp hf p hp
            simp [hpid] at this
          · by_cases he : c.2 = p.estoque_atual
            · rw [auditStep_of_eq hf he]
              intro q2 hq2 hq2id
              have hpid : p.id = c.1 := by simpa using List.find?_some hf
              have hpm := List.mem_of_find?_eq_some hf
              have hq2p : q2 = p :=
                List.inj_on_of_nodup_map hnd hq2 hpm (by rw [hq2id, hpid])
              rw [hq2p, ← he]
            · rw [auditStep_of_ne hf he]
              intro q2 hq2 hq2id
              rcases List.mem_map.mp hq2 with ⟨q3, hq3, rfl⟩
              by_cases hqc : q3.id = c.1
              · rw [if_pos hqc]
              · rw [if_neg hqc] at hq2id ⊢
                exact absurd hq2id hqc
        exact auditFold_pres now c.1 c.2 cs _ hk0 hprop q hq hqid
      · exact ih _ hks (by rw [auditStep_ids]; exact hnd) c hmem q hq hqid

theorem auditFold_no_change (now : ℤ) :
    ∀ (counts : List (ℤ × ℤ)) (st : List Product × List Event × Bool),
      (∀ c ∈ counts, ∀ p ∈ st.1, p.id = c.1 → p.estoque_atual = c.2) →
      counts.foldl (auditStep now) st = st := by
  intro counts
  induction counts with
  | nil =>
      intro st _
      rfl
  | cons c cs ih =>
      intro st h
      have hstep : auditStep now st c = st := by
        rcases hf : st.1.find? (fun p => p.id = c.1) with _ | p
        · exact auditStep_of_none hf
        · have hpid : p.id = c.1 := by simpa using List.find?_some hf
          exact auditStep_of_eq hf (h c (by simp) p (List.mem_of_find?_eq_some hf) hpid).symm
      rw [List.foldl_cons, hstep]
      exact ih st (fun c2 hc2 => h c2 (by simp [hc2]))

theorem auditFold_flag_of_diff (now : ℤ) :
    ∀ (counts : List (ℤ × ℤ)) (st : List Product × List Event × Bool),
      (counts.map (fun c => c.1)).Nodup → (st.1.map (fun p => p.id)).Nodup →
      (∃ c ∈ counts, ∃ p ∈ st.1, p.id = c.1 ∧ p.estoque_atual ≠ c.2) →
      (counts.foldl (auditStep now) st).2.2 = true := by
  intro counts
  induction counts with
  | nil =>
      intro st _ _ h
      rcases h with ⟨c, hc, _⟩
      cases hc
  | cons c0 cs ih =>
      intro st hk hnd hw
      rw [List.map_cons, List.nodup_cons] at hk
      obtain ⟨hk0, hks⟩ := hk
      rw [List.foldl_cons]
      rcases hw with ⟨c, hcmem, p, hp, hpid, hne⟩
      rcases List.mem_cons.mp hcmem with rfl | hmem
      · have hf : st.1.find? (fun q => q.id = c.1) = some p := by
          rw [← hpid]
          exact find_id_unique hnd hp
        rw [auditStep_of_ne hf (Ne.symm hne)]
        exact auditFold_flag now cs _ rfl
      · have hc0c : p.id ≠ c0.1 := by
          rw [hpid]
          intro hEq
          exact hk0 (hEq ▸ List.mem_map.mpr ⟨c, hmem, rfl⟩)
        have hmem2 : p ∈ (auditStep now st c0).1 := auditStep_mem_foreign hp hc0c
        exact ih _ hks (by rw [auditStep_ids]; exact hnd) ⟨c, hmem, p, hmem2, hpid, hne⟩

/-! ### Fresh-id lemmas -/

theorem foldl_max_le_init (ps : List Product) :
    ∀ b : ℤ, b ≤ ps.foldl (fun m q => max m q.id) b := by
  induction ps with
  | nil => exact fun b => le_rfl
  | cons p ps ih =>
      intro b
      rw [List.foldl_cons]
      exact le_trans (le_max_left b p.id) (ih (max b p.id))

theorem foldl_max_mem (ps : List Product) :
    ∀ (b : ℤ) (q : Product), q ∈ ps → q.id ≤ ps.foldl (fun m q => max m q.id) b := by
  induction ps with
  | nil =>
      intro _ q hq
      cases hq
  | cons p ps ih =>
      intro b q hq
      rw [List.foldl_cons]
      rcases List.mem_cons.mp hq with rfl | hmem
      · exact le_trans (le_max_right b q.id) (foldl_max_le_init ps (max b q.id))
      · exact ih (max b p.id) q hmem

theorem maxId_ge {products : List Product} {p : Product} (hp : p ∈ products) :
    p.id ≤ maxId products := by
  unfold maxId
  cases products with
  | nil => cases hp
  | cons a as =>
      rcases List.mem_cons.mp hp with rfl | hmem
      · exact foldl_max_le_init as p.id
      · exact foldl_max_mem as a.id p hmem

theorem nid_fresh (products : List Product) : ∀ p ∈ products, p.id ≠ nidOf products := by
  intro p hp
  unfold nidOf
  split
  · have := maxId_ge hp
    omega
  · next hcond =>
      intro hEq
      apply hcond
      constructor
      · intro hnil
        rw [hnil] at hp
        cases hp
      · exact hEq ▸ List.mem_map.mpr ⟨p, hp, rfl⟩

/-! ### Ledger and invariant lemmas -/

theorem ledgerStock_append (pid : ℤ) (h1 h2 : List Event) :
    ledgerStock pid (h1 ++ h2) = h2.foldl (ledgerStep pid) (ledgerStock pid h1) := by
  unfold ledgerStock
  rw [List.foldl_append]

theorem ledgerStock_append_one (pid : ℤ) (h : List Event) (e : Event) :
    ledgerStock pid (h ++ [e]) = ledgerStep pid (ledgerStock pid h) e := by
  rw [ledgerStock_append]
  rfl

theorem ledgerStep_foreign {pid : ℤ} {acc : Option ℤ} {e : Event}
    (h : e.produto_id ≠ pid) : ledgerStep pid acc e = acc := by
  unfold ledgerStep
  rw [if_neg h]

theorem ledgerStep_audit_own {pid : ℤ} {acc : Option ℤ} {e : Event}
    (h1 : e.produto_id = pid) (h2 : e.tipo = Tipo.levantamento) :
    ledgerStep pid acc e = some e.qtd := by
  unfold ledgerStep
  rw [if_pos h1, h2]

theorem ledgerStep_compra_own {pid : ℤ} {acc : Option ℤ} {e : Event}
    (h1 : e.produto_id = pid) (h2 : e.tipo = Tipo.compra) :
    ledgerStep pid acc e = acc.map (fun s => s + e.qtd) := by
  unfold ledgerStep
  rw [if_pos h1, h2]

theorem inv_excluir {s : List Product × List Event} (h : Invariant s) (nome : String) :
    Invariant (excluir s nome) := by
  intro p hp
  exact h p (List.mem_of_mem_filter hp)

theorem inv_cadastrar {s : List Product × List Event} (h : Invariant s)
    (nome marca : String) (est_inicial minimo now : ℤ) :
    Invariant (cadastrar s nome marca est_inicial minimo now) := by
  unfold cadastrar
  split
  · exact h
  · split
    · exact h
    · intro p hp
      rcases List.mem_append.mp hp with hmem | hmem
      · have hfresh : p.id ≠ nidOf s.1 := nid_fresh s.1 p hmem
        show ledgerStock p.id (s.2 ++ [mkAudit now (nidOf s.1) est_inicial]) =
          some p.estoque_atual
        rw [ledgerStock_append_one]
        rw [ledgerStep_foreign (fun hh => hfresh hh.symm)]
        exact h p hmem
      · rw [List.mem_singleton.mp hmem]
        show ledgerStock (nidOf s.1) (s.2 ++ [mkAudit now (nidOf s.1) est_inicial]) =
          some est_inicial
        rw [ledgerStock_append_one]
        exact ledgerStep_audit_own rfl rfl

theorem inv_commit_fold (now : ℤ) :
    ∀ (cart : List CartEntry) (P : List Product) (H : List Event),
      Invariant (P, H) →
      Invariant (cart.foldl (fun ps c => if 0 < c.qtd then aplicaCompra c ps else ps) P,
        H ++ (cart.filter (fun c => 0 < c.qtd)).map (mkCompra now)) := by
  intro cart
  induction cart with
  | nil =>
      intro P H h
      simpa using h
  | cons c cs ih =>
      intro P H h
      by_cases hq : 0 < c.qtd
      · rw [List.foldl_cons, if_pos hq, List.filter_cons_of_pos (by simpa using hq)]
        have hassoc :
            H ++ (mkCompra now c :: (cs.filter (fun c => 0 < c.qtd)).map (mkCompra now)) =
              (H ++ [mkCompra now c]) ++ (cs.filter (fun c => 0 < c.qtd)).map (mkCompra now) := by
          simp
        rw [List.map_cons, hassoc]
        apply ih
        intro p hp
        rcases List.mem_map.mp hp with ⟨p0, hp0, rfl⟩
        by_cases hpc : p0.id = c.pid
        · rw [if_pos hpc]
          show ledgerStock p0.id (H ++ [mkCompra now c]) = some (p0.estoque_atual + c.qtd)
          rw [ledgerStock_append_one, ledgerStep_compra_own hpc.symm rfl, h p0 hp0]
          rfl
        · rw [if_neg hpc]
          show ledgerStock p0.id (H ++ [mkCompra now c]) = some p0.estoque_atual
          rw [ledgerStock_append_one]
          rw [ledgerStep_foreign (fun hh => hpc hh.symm)]
          exact h p0 hp0
      · rw [List.foldl_cons, if_neg hq, List.filter_cons_of_neg (by simpa using hq)]
        exact ih P H h

theorem inv_commit {P : List Product} {H : List Event} (h : Invariant (P, H))
    (cart : List CartEntry) (now : ℤ) :
    Invariant ((commit P H cart now).1, (commit P H cart now).2.1) := by
  unfold commit
  split
  · exact h
  · exact inv_commit_fold now cart P H h

theorem inv_audit_fold (now : ℤ) :
    ∀ (counts : List (ℤ × ℤ)) (P : List Product) (H E : List Event) (b : Bool),
      (∀ p ∈ P, ledgerStock p.id (H ++ E) = some p.estoque_atual) →
      ∀ p ∈ (counts.foldl (auditStep now) (P, E, b)).1,
        ledgerStock p.id (H ++ (counts.foldl (auditStep now) (P, E, b)).2.1) =
          some p.estoque_atual := by
  intro counts
  induction counts with
  | nil =>
      intro P H E b h
      simpa using h
  | cons c cs ih =>
      intro P H E b h
      rw [List.foldl_cons]
      rcases hf : P.find? (fun p => p.id = c.1) with _ | p
      · rw [auditStep_of_none hf]
        exact ih P H E b h
      · by_cases he : c.2 = p.estoque_atual
        · rw [auditStep_of_eq hf he]
          exact ih P H E b h
        · rw [auditStep_of_ne hf he]
          apply ih
          intro q hq
          rcases List.mem_map.mp hq with ⟨q0, hq0, rfl⟩
          have hassoc : H ++ (E ++ [mkAudit now c.1 c.2]) =
              (H ++ E) ++ [mkAudit now c.1 c.2] := by
            rw [List.append_assoc]
          by_cases hqc : q0.id = c.1
          · rw [if_pos hqc]
            show ledgerStock q0.id (H ++ (E ++ [mkAudit now c.1 c.2])) = some c.2
            rw [hassoc, ledgerStock_append_one]
            exact ledgerStep_audit_own hqc.symm rfl
          · rw [if_neg hqc]
            show ledgerStock q0.id (H ++ (E ++ [mkAudit now c.1 c.2])) =
              some q0.estoque_atual
            rw [hassoc, ledgerStock_append_one]
            rw [ledgerStep_foreign (fun hh => hqc hh.symm)]
            exact h q0 hq0

theorem inv_apply_audit {P : List Product} {H : List Event} (h : Invariant (P, H))
    (counts : List (ℤ × ℤ)) (now : ℤ) :
    Invariant ((apply_audit P H counts now).1, (apply_audit P H counts now).2.1) := by
  unfold apply_audit
  split
  · intro p hp
    exact inv_audit_fold now counts P H [] false (by simpa using h) p hp
  · exact h

/-! ### Claim theorems -/

/-- C1 (counterexample): the claim says the estimator returns
`round(consumed / elapsed_days * 30, 1)`.  On a history with two audits seven
days apart and consumption 1 the code's rate is `30/7`, while the claimed
rounded rate is `4.3`; the code does not round the rate it returns. -/
theorem c1_counterexample :
    2 ≤ (levsOf 1 c1Hist).length ∧
    specMonthlyRate 1 c1Hist = some (43/10) ∧
    estimate 1 c1Hist = some (30/7) ∧
    specMonthlyRate 1 c1Hist ≠ estimate 1 c1Hist := by
  have hlen : 2 ≤ (levsOf 1 c1Hist).length := by decide
  have h1 : specMonthlyRate 1 c1Hist = some (43/10) := by
    simp [specMonthlyRate, purchasedBetween, diasOf, round1, levsOf, histOf, sortDesc,
      insertDesc, c1Hist]
    norm_num [Int.fdiv, round_eq]
  have h2 : estimate 1 c1Hist = some (30/7) := by
    simp [estimate, consumidoOf, comprasBetween, diasOf, levsOf, histOf, sortDesc,
      insertDesc, c1Hist]
    norm_num [Int.fdiv]
  refine ⟨hlen, h1, h2, ?_⟩
  rw [h1, h2]
  simp only [ne_eq, Option.some.injEq]
  norm_num

/-- C1 (amended): for every product with at least two audits the estimator
returns exactly `consumed / elapsed_days * 30` — consumed clamped at 0,
purchases summed over `previous.timestamp < t <= latest.timestamp`, elapsed
days floored with 0 treated as 1 — with no rounding applied; the 1-decimal
rounding exists only in the displayed reason text. -/
theorem c1_estimator_unrounded (pid : ℤ) (df_hist : List Event)
    (h : 2 ≤ (levsOf pid df_hist).length) :
    estimate pid df_hist = specMonthlyRateRaw pid df_hist ∧
    ∃ r : ℚ, estimate pid df_hist = some r := by
  refine ⟨estimate_eq_specRaw pid df_hist, ?_⟩
  rcases hE : estimate pid df_hist with _ | r
  · rw [estimate_eq_none_iff] at hE
    omega
  · exact ⟨r, rfl⟩

theorem c1_witness :
    estimate 1 c1Hist = specMonthlyRateRaw 1 c1Hist ∧
    ∃ r : ℚ, estimate 1 c1Hist = some r :=
  c1_estimator_unrounded 1 c1Hist (by decide)

/-- C2 (counterexample): with two audits yielding rate 0, current stock 1 and
minimum stock 4, the claim demands the min-stock fallback `(3, below
minimum)`, but the code returns `(0, empty)`: the fallback only runs when
fewer than two audits exist. -/
theorem c2_counterexample :
    estimate c2Prod.id c2Hist = some 0 ∧
    (0 : ℚ) - (c2Prod.estoque_atual : ℚ) ≤ 0 ∧
    0 < c2Prod.estoque_minimo - c2Prod.estoque_atual ∧
    calcular_sugestao c2Prod c2Hist = (0, Motivo.vazio) ∧
    calcular_sugestao c2Prod c2Hist ≠
      (c2Prod.estoque_minimo - c2Prod.estoque_atual, Motivo.abaixoMinimo) := by
  have hE : estimate c2Prod.id c2Hist = some 0 := by
    simp [estimate, consumidoOf, comprasBetween, diasOf, levsOf, histOf, sortDesc,
      insertDesc, c2Prod, c2Hist]
  have hplan : calcular_sugestao c2Prod c2Hist = (0, Motivo.vazio) := by
    simp [calcular_sugestao, sugestaoVal, motivoVal, estimate, consumidoOf, comprasBetween,
      diasOf, levsOf, histOf, sortDesc, insertDesc, c2Prod, c2Hist]
    norm_num [Int.fdiv, pyRound, pyInt]
  refine ⟨hE, by norm_num [c2Prod], by norm_num [c2Prod], hplan, ?_⟩
  rw [hplan]
  simp [c2Prod]

/-- C2 (amended): when two or more audits exist and the rate-based need is
non-positive, the suggestion is 0 with an empty reason — the min-stock
fallback is NOT consulted; the fallback applies only when fewer than two
audits exist, and then a positive `min_stock - current_stock` is suggested
with the "below minimum stock" reason. -/
theorem c2_planner_no_fallback (row : Product) (df_hist : List Event) :
    (∀ r : ℚ, estimate row.id df_hist = some r → r ≤ (row.estoque_atual : ℚ) →
      calcular_sugestao row df_hist = (0, Motivo.vazio)) ∧
    ((levsOf row.id df_hist).length < 2 → row.estoque_atual < row.estoque_minimo →
      calcular_sugestao row df_hist =
        (row.estoque_minimo - row.estoque_atual, Motivo.abaixoMinimo)) := by
  constructor
  · intro r hE hle
    unfold calcular_sugestao sugestaoVal motivoVal
    rw [hE]
    dsimp only
    simp only [if_neg (not_lt.mpr hle)]
    rw [pyRound_zero]
  · intro hlen hmin
    have hE : estimate row.id df_hist = none := (estimate_eq_none_iff _ _).mpr hlen
    unfold calcular_sugestao sugestaoVal motivoVal
    rw [hE]
    dsimp only
    simp only [if_pos hmin]
    rw [pyRound_intCast (by omega)]

theorem c2_witness : calcular_sugestao c2Prod c2Hist = (0, Motivo.vazio) :=
  (c2_planner_no_fallback c2Prod c2Hist).1 0
    (by
      simp [estimate, consumidoOf, comprasBetween, diasOf, levsOf, histOf, sortDesc,
        insertDesc, c2Prod, c2Hist])
    (by norm_num [c2Prod])

/-- C3: the planner's suggestion is `int(need + 0.9)` — add 0.9 then truncate
toward zero, not a mathematical ceiling: 3.0 gives 3, 3.01 gives 3, 0.05
gives 0 — and the suggestion is never negative. -/
theorem c3_rounding_law :
    pyRound 3 = 3 ∧ pyRound (301/100) = 3 ∧ pyRound (1/20) = 0 ∧
    ∀ (row : Product) (df_hist : List Event),
      (calcular_sugestao row df_hist).1 = pyRound (sugestaoVal row df_hist) ∧
      0 ≤ (calcular_sugestao row df_hist).1 := by
  refine ⟨by norm_num [pyRound, pyInt], by norm_num [pyRound, pyInt],
    by norm_num [pyRound, pyInt], ?_⟩
  intro row df_hist
  exact ⟨rfl, pyRound_nonneg (sugestaoVal_nonneg row df_hist)⟩

/-- C4: the estimator returns `none` exactly when fewer than two audits
exist, and any returned rate is non-negative. -/
theorem c4_estimate_characterization (pid : ℤ) (df_hist : List Event) :
    (estimate pid df_hist = none ↔ (levsOf pid df_hist).length < 2) ∧
    ∀ r : ℚ, estimate pid df_hist = some r → 0 ≤ r :=
  ⟨estimate_eq_none_iff pid df_hist, fun _ h => estimate_nonneg h⟩

theorem c4_witness : (0:ℚ) ≤ 6 :=
  (c4_estimate_characterization 2 c4Hist).2 6
    (by
      simp [estimate, consumidoOf, comprasBetween, diasOf, levsOf, histOf, sortDesc,
        insertDesc, c4Hist]
      norm_num [Int.fdiv])

/-- C5: when some cart entry is positive and cart entries are one-per-product,
commit updates each matched product (stock incremented, price set), appends
exactly one PURCHASE event per positive entry — all stamped with the single
`now` — and clears the cart quantities. -/
theorem c5_commit_effects (products : List Product) (history : List Event)
    (cart : List CartEntry) (now : ℤ)
    (h1 : ∃ c ∈ cart, 0 < c.qtd) (h2 : (cart.map (fun c => c.pid)).Nodup) :
    commit products history cart now =
      (commitProductsSpec cart products,
       history ++ (cart.filter (fun c => 0 < c.qtd)).map (mkCompra now),
       cart.map (fun c => { c with qtd := 0 }),
       Outcome.committed) ∧
    ∀ e ∈ (cart.filter (fun c => 0 < c.qtd)).map (mkCompra now), e.data = now := by
  constructor
  · unfold commit
    rw [if_neg (commit_realizadas_ne_nil h1 now)]
    rw [commit_fold_eq cart products h2]
  · intro e he
    rcases List.mem_map.mp he with ⟨c, _, rfl⟩
    rfl

theorem c5_witness :
    commit c5Prods c5Hist c5Cart 100 =
      (commitProductsSpec c5Cart c5Prods,
       c5Hist ++ (c5Cart.filter (fun c => 0 < c.qtd)).map (mkCompra 100),
       c5Cart.map (fun c => { c with qtd := 0 }),
       Outcome.committed) ∧
    ∀ e ∈ (c5Cart.filter (fun c => 0 < c.qtd)).map (mkCompra 100), e.data = 100 :=
  c5_commit_effects c5Prods c5Hist c5Cart 100 (by decide) (by decide)

/-- C6: a cart with no positive quantity commits nothing: products, history
and cart are unchanged and the distinct "nothing to commit" outcome is
reported. -/
theorem c6_commit_noop (products : List Product) (history : List Event)
    (cart : List CartEntry) (now : ℤ) (h : ∀ c ∈ cart, c.qtd ≤ 0) :
    commit products history cart now = (products, history, cart, Outcome.nothingToCommit) := by
  have hfil : cart.filter (fun c => 0 < c.qtd) = [] := by
    rw [List.filter_eq_nil_iff]
    intro c hc
    simpa using not_lt.mpr (h c hc)
  unfold commit
  rw [hfil]
  simp

theorem c6_witness :
    commit c5Prods c5Hist c6Cart 100 = (c5Prods, c5Hist, c6Cart, Outcome.nothingToCommit) :=
  c6_commit_noop c5Prods c5Hist c6Cart 100 (by decide)

/-- C7: under one count per product id and pairwise-distinct product ids,
SALVAR CONTAGEM (a) is a reported no-op when every counted value equals the
current stock, (b) reports a change when some counted value differs for an
existing product, and (c) is idempotent: a second application of the same
counts changes nothing and reports no change. -/
theorem c7_apply_audit (products : List Product) (history : List Event)
    (counts : List (ℤ × ℤ)) (now : ℤ)
    (hk : (counts.map (fun c => c.1)).Nodup)
    (hpid : (products.map (fun p => p.id)).Nodup) :
    ((∀ c ∈ counts, ∀ p ∈ products, p.id = c.1 → p.estoque_atual = c.2) →
      apply_audit products history counts now = (products, history, false)) ∧
    ((∃ c ∈ counts, ∃ p ∈ products, p.id = c.1 ∧ p.estoque_atual ≠ c.2) →
      (apply_audit products history counts now).2.2 = true) ∧
    apply_audit (apply_audit products history counts now).1
        (apply_audit products history counts now).2.1 counts now =
      ((apply_audit products history counts now).1,
       (apply_audit products history counts now).2.1, false) := by
  refine ⟨?_, ?_, ?_⟩
  · intro h
    unfold apply_audit
    rw [auditFold_no_change now counts (products, [], false) h]
    simp
  · intro h
    have hflag := auditFold_flag_of_diff now counts (products, [], false) hk hpid h
    unfold apply_audit
    rw [if_pos hflag]
  · by_cases hfl : (counts.foldl (auditStep now) (products, [], false)).2.2 = true
    · have happ : apply_audit products history counts now =
          ((counts.foldl (auditStep now) (products, [], false)).1,
           history ++ (counts.foldl (auditStep now) (products, [], false)).2.1, true) := by
        unfold apply_audit
        rw [if_pos hfl]
      have hall : ∀ c ∈ counts,
          ∀ p ∈ (counts.foldl (auditStep now) (products, [], false)).1, p.id = c.1 →
            p.estoque_atual = c.2 :=
        fun c hc q hq hqid => auditFold_sets now counts (products, [], false) hk hpid c hc q hq hqid
      rw [happ]
      unfold apply_audit
      dsimp only
      rw [auditFold_no_change now counts
        ((counts.foldl (auditStep now) (products, [], false)).1, [], false) hall]
      simp
    · have happ : apply_audit products history counts now = (products, history, false) := by
        unfold apply_audit
        rw [if_neg hfl]
      rw [happ]
      exact happ

theorem c7_witness : (apply_audit c5Prods c5Hist c7Counts 5).2.2 = true :=
  (c7_apply_audit c5Prods c5Hist c7Counts 5 (by decide) (by decide)).2.1 (by decide)

/-- C8: every state reachable from the empty sheets by registration,
purchase commits, stock counts and deletions satisfies the invariant:
each product's `current_stock` equals its most recent AUDIT quantity plus
the PURCHASE quantities appended after that audit.  Registration establishes
it by writing an AUDIT event carrying the initial stock. -/
theorem c8_stock_ledger_invariant : ∀ s, Reachable s → Invariant s := by
  intro s h
  induction h with
  | init =>
      intro p hp
      cases hp
  | reg s nome marca est_inicial minimo now _ ih =>
      exact inv_cadastrar ih nome marca est_inicial minimo now
  | buy s cart now _ ih =>
      exact inv_commit ih cart now
  | audit s counts now _ ih =>
      exact inv_apply_audit ih counts now
  | del s nome _ ih =>
      exact inv_excluir ih nome

theorem c8_witness :
    Invariant ((commit (cadastrar ([], []) "Arroz" "M" 10 2 0).1
        (cadastrar ([], []) "Arroz" "M" 10 2 0).2 [⟨1, 2, 5⟩] 86400).1,
      (commit (cadastrar ([], []) "Arroz" "M" 10 2 0).1
        (cadastrar ([], []) "Arroz" "M" 10 2 0).2 [⟨1, 2, 5⟩] 86400).2.1) :=
  c8_stock_ledger_invariant _
    (Reachable.buy (cadastrar ([], []) "Arroz" "M" 10 2 0) [⟨1, 2, 5⟩] 86400
      (Reachable.reg ([], []) "Arroz" "M" 10 2 0 Reachable.init))

/-- C9 (code bug): the claim — and spec sections 7 and 8 — require the
estimator and planner to tolerate an empty history and return their
"no data" defaults (no rate; the min-stock fallback) instead of raising.
This theorem proves those intended defaults in the embedding: no rate, and
a positive `min_stock - current_stock` suggested with the "below minimum"
reason (otherwise 0 with an empty reason).  The Python code does not reach
them: with a blank `historico` sheet, `load_data` returns a column-less
empty DataFrame (the guard at app.py line 102 skips all column handling),
and `calcular_sugestao` raises an uncaught `KeyError` at
`df_hist['Produto_ID']` (app.py line 129) for every product, so the code
throws on exactly the empty-history input the claim is about. -/
theorem c9_empty_history (row : Product) :
    estimate row.id [] = none ∧
    (row.estoque_atual < row.estoque_minimo →
      calcular_sugestao row [] = (row.estoque_minimo - row.estoque_atual, Motivo.abaixoMinimo)) ∧
    (row.estoque_minimo ≤ row.estoque_atual →
      calcular_sugestao row [] = (0, Motivo.vazio)) := by
  have hE : estimate row.id [] = none := by
    rw [estimate_eq_none_iff]
    simp [levsOf, histOf, sortDesc]
  refine ⟨hE, ?_, ?_⟩
  · intro hmin
    unfold calcular_sugestao sugestaoVal motivoVal
    rw [hE]
    dsimp only
    simp only [if_pos hmin]
    rw [pyRound_intCast (by omega)]
  · intro hge
    unfold calcular_sugestao sugestaoVal motivoVal
    rw [hE]
    dsimp only
    simp only [if_neg (not_lt.mpr hge)]
    rw [pyRound_zero]

theorem c9_witness :
    calcular_sugestao ⟨9, "Sal", "", 0, 1, 4⟩ [] = (3, Motivo.abaixoMinimo) := by
  have h := (c9_empty_history ⟨9, "Sal", "", 0, 1, 4⟩).2.1 (by decide)
  simpa using h

/-- C10: the id picked for a new product — `count + 1`, replaced by
`max id + 1` when `count + 1` already occurs — differs from every existing
product's id, so registration preserves pairwise distinctness of ids. -/
theorem c10_fresh_id (s : List Product × List Event) (nome marca : String)
    (est_inicial minimo now : ℤ) (h : (s.1.map (fun p => p.id)).Nodup) :
    (∀ p ∈ s.1, p.id ≠ nidOf s.1) ∧
    ((cadastrar s nome marca est_inicial minimo now).1.map (fun p => p.id)).Nodup := by
  refine ⟨nid_fresh s.1, ?_⟩
  unfold cadastrar
  split
  · exact h
  · split
    · exact h
    · rw [List.map_append, List.nodup_append]
      refine ⟨h, by simp, ?_⟩
      intro a ha hb
      rcases List.mem_map.mp ha with ⟨p, hp, rfl⟩
      simp only [List.map_cons, List.map_nil, List.mem_singleton] at hb
      exact nid_fresh s.1 p hp hb

theorem c10_witness :
    (∀ p ∈ c5Prods, p.id ≠ nidOf c5Prods) ∧
    ((cadastrar (c5Prods, c5Hist) "Arroz" "" 10 2 0).1.map (fun p => p.id)).Nodup :=
  c10_fresh_id (c5Prods, c5Hist) "Arroz" "" 10 2 0 (by decide)
